import Mathlib

/-!
Bowyer-Watson triangulation (`delaunay.hpp`)

A shallow embedding of `delaunay.hpp` and a verification development over it.

Scalars.  The code is generic over a floating-point type `T`.  Here a finite
scalar is a rational number and arithmetic on finite scalars is exact.  The
only operation of the code that leaves the finite scalars is the division
`1. / (2. * (ax * by - ay * bx))` in the `Triangle` constructor when the three
vertices are collinear: the quotient is then infinite, the centre and the
`radius` computed from it are infinite or not-a-number, and every later
`dist - tri.circle.radius` is not-a-number, so that every comparison with it
is false.  A circle computed through that division is represented by `none`,
and a comparison with a `none` circle is false.
-/

namespace delaunay

/-- The constant `eps = 1e-4` (delaunay.hpp, line 13). -/
def eps : ℚ := 1 / 10000

/-- The struct `Point<T>` (lines 15-39). -/
structure Point where
  x : ℚ
  y : ℚ
deriving DecidableEq, Repr

/-- `Point::operator==` (lines 33-36): `other.x == x && other.y == y`. -/
def Point.operatorEq (self other : Point) : Bool :=
  decide (other.x = self.x) && decide (other.y = self.y)

/-- `Point::operator!=` (line 38). -/
def Point.operatorNe (self other : Point) : Bool :=
  !(self.operatorEq other)

/-- The struct `Edge<T>` (lines 41-59). -/
structure Edge where
  p0 : Point
  p1 : Point
deriving DecidableEq, Repr

/-- `Edge::operator==` (lines 54-58). -/
def Edge.operatorEq (self other : Edge) : Bool :=
  (other.p0.operatorEq self.p0 && other.p1.operatorEq self.p1) ||
  (other.p0.operatorEq self.p1 && other.p1.operatorEq self.p0)

/-- The struct `Circle<T>` (lines 61-65), with finite fields. -/
structure Circle where
  x : ℚ
  y : ℚ
  radius : ℚ
deriving DecidableEq, Repr

/-- The struct `Triangle<T>` (lines 67-99).  The field `circle` is `none` when
the constructor computed it through a division by zero. -/
structure Triangle where
  p0 : Point
  p1 : Point
  p2 : Point
  e0 : Edge
  e1 : Edge
  e2 : Edge
  circle : Option Circle
deriving DecidableEq, Repr

/-- The circumcircle computation in the body of the `Triangle` constructor
(lines 83-97). -/
def circumcircle (p0 p1 p2 : Point) : Option Circle :=
  let ax := p1.x - p0.x
  let ay := p1.y - p0.y
  let bx := p2.x - p0.x
  let by_ := p2.y - p0.y
  let m := p1.x * p1.x - p0.x * p0.x + p1.y * p1.y - p0.y * p0.y
  let u := p2.x * p2.x - p0.x * p0.x + p2.y * p2.y - p0.y * p0.y
  let den := 2 * (ax * by_ - ay * bx)
  if den = 0 then none
  else
    let s := 1 / den
    let cx := ((p2.y - p0.y) * m + (p0.y - p1.y) * u) * s
    let cy := ((p0.x - p2.x) * m + (p1.x - p0.x) * u) * s
    let dx := p0.x - cx
    let dy := p0.y - cy
    some { x := cx, y := cy, radius := dx * dx + dy * dy }

/-- The constructor `Triangle(_p0, _p1, _p2)` (lines 74-98). -/
def Triangle.new (p0 p1 p2 : Point) : Triangle :=
  { p0 := p0, p1 := p1, p2 := p2,
    e0 := { p0 := p0, p1 := p1 },
    e1 := { p0 := p1, p1 := p2 },
    e2 := { p0 := p0, p1 := p2 },
    circle := circumcircle p0 p1 p2 }

/-- The struct `Delaunay<T>` (lines 101-105). -/
structure Delaunay where
  triangles : List Triangle := []
  edges : List Edge := []
deriving DecidableEq, Repr

/-- The value `dist - tri.circle.radius` of lines 146-148 for the point `pt`;
`none` when it is not-a-number. -/
def distMinusRadius (tri : Triangle) (pt : Point) : Option ℚ :=
  match tri.circle with
  | none => none
  | some c =>
    let dist := (c.x - pt.x) * (c.x - pt.x) + (c.y - pt.y) * (c.y - pt.y)
    some (dist - c.radius)

/-- The test `(dist - tri.circle.radius) <= eps` of line 148. -/
def isBad (tri : Triangle) (pt : Point) : Bool :=
  match distMinusRadius tri pt with
  | none => false
  | some w => decide (w ≤ eps)

/-- The classification loop of lines 142-156: the pair `(edges, tmps)` after
the loop over `d.triangles`. -/
def classify (pt : Point) (triangles : List Triangle) : List Edge × List Triangle :=
  triangles.foldl
    (fun acc tri =>
      if isBad tri pt then (acc.1 ++ [tri.e0, tri.e1, tri.e2], acc.2)
      else (acc.1, acc.2 ++ [tri]))
    ([], [])

/-- The body of the inner loop (lines 162-168), for the iterators `it1` and
`it2`, each given as the pair of its index and the entry it points to. -/
def markPair (remove : List Bool) (it1 it2 : ℕ × Edge) : List Bool :=
  if it1.1 = it2.1 then remove
  else if it1.2.operatorEq it2.2 then (remove.set it1.1 true).set it2.1 true
  else remove

/-- The double loop of lines 159-170: the vector `remove` after it. -/
def markDuplicates (edges : List Edge) : List Bool :=
  edges.enum.foldl
    (fun remove it1 => edges.enum.foldl (fun remove it2 => markPair remove it1 it2) remove)
    (List.replicate edges.length false)

/-- The erase-remove of lines 172-175: the entries of `edges` whose flag in
`remove` is not set, in their order. -/
def eraseMarked (edges : List Edge) (remove : List Bool) : List Edge :=
  (edges.enum.filter (fun ie => !(remove.getD ie.1 false))).map (fun ie => ie.2)

/-- One iteration of the loop over `points` (lines 141-182): the new value of
`d.triangles`. -/
def insertPoint (triangles : List Triangle) (pt : Point) : List Triangle :=
  let c := classify pt triangles
  let edges := eraseMarked c.1 (markDuplicates c.1)
  c.2 ++ edges.map (fun e => Triangle.new e.p0 e.p1 { x := pt.x, y := pt.y })

/-- The bounding-box loop of lines 116-125: `(xmin, xmax, ymin, ymax)`. -/
def boundingBox (first : Point) (points : List Point) : ℚ × ℚ × ℚ × ℚ :=
  points.foldl
    (fun b pt => (min b.1 pt.x, max b.2.1 pt.x, min b.2.2.1 pt.y, max b.2.2.2 pt.y))
    (first.x, first.x, first.y, first.y)

/-- The three corners `p0`, `p1`, `p2` of the super-triangle (lines 127-138),
where `first` is `points[0]`. -/
def superCorners (first : Point) (points : List Point) : Point × Point × Point :=
  let b := boundingBox first points
  let xmin := b.1
  let xmax := b.2.1
  let ymin := b.2.2.1
  let ymax := b.2.2.2
  let dx := xmax - xmin
  let dy := ymax - ymin
  let dmax := max dx dy
  let midx := (xmin + xmax) / 2
  let midy := (ymin + ymax) / 2
  ({ x := midx - 20 * dmax, y := midy - dmax },
   { x := midx, y := midy + 20 * dmax },
   { x := midx + 20 * dmax, y := midy - dmax })

/-- The predicate of the final `remove_if` (lines 187-191). -/
def touchesSuper (s : Point × Point × Point) (tri : Triangle) : Bool :=
  ((tri.p0.operatorEq s.1 || tri.p1.operatorEq s.1 || tri.p2.operatorEq s.1) ||
   (tri.p0.operatorEq s.2.1 || tri.p1.operatorEq s.2.1 || tri.p2.operatorEq s.2.1) ||
   (tri.p0.operatorEq s.2.2 || tri.p1.operatorEq s.2.2 || tri.p2.operatorEq s.2.2))

/-- The loop of lines 194-199: the edges of the triangles, in order. -/
def collectEdges (triangles : List Triangle) : List Edge :=
  triangles.foldl (fun edges tri => edges ++ [tri.e0, tri.e1, tri.e2]) []

/-- The working set `d.triangles` after the loop over `points`
(lines 134-182). -/
def workingSet (s : Point × Point × Point) (points : List Point) : List Triangle :=
  points.foldl insertPoint [Triangle.new s.1 s.2.1 s.2.2]

/-- Lines 116-200 of `triangulate`, where `first` is `points[0]`. -/
def triangulateFrom (first : Point) (points : List Point) : Delaunay :=
  let s := superCorners first points
  let triangles := (workingSet s points).filter (fun tri => !(touchesSuper s tri))
  { triangles := triangles, edges := collectEdges triangles }

/-- The function `triangulate` (lines 107-201). -/
def triangulate (points : List Point) : Delaunay :=
  if h : points.length < 3 then {}
  else triangulateFrom (points.get ⟨0, by omega⟩) points

/-! ## Scenario inputs -/

/-- The input of Scenario A. -/
def scenarioA : List Point := [⟨0, 0⟩, ⟨1, 0⟩, ⟨0, 1⟩]

/-- The input of Scenario B (the unit square). -/
def scenarioB : List Point := [⟨0, 0⟩, ⟨1, 0⟩, ⟨1, 1⟩, ⟨0, 1⟩]

/-- The comparison `squared-distance(P, center) - radius > eps` of the
specification; like every comparison it is false when the value is
not-a-number. -/
def strictlyOutside (tri : Triangle) (pt : Point) : Bool :=
  match distMinusRadius tri pt with
  | none => false
  | some w => decide (eps < w)

/-- The edge list collected from the bad triangles of `triangles` for `pt`
(lines 149-151), in triangle order. -/
def badEdges (triangles : List Triangle) (pt : Point) : List Edge :=
  (triangles.filter (fun t => isBad t pt)).flatMap (fun t => [t.e0, t.e1, t.e2])

/-- The insertion step as the specification describes its result: the
triangles with `squared-distance(P, center) - radius > eps`, in their order,
followed by one triangle `(e.p0, e.p1, P)` per retained boundary edge. -/
def insertPointSpec (triangles : List Triangle) (pt : Point) : List Triangle :=
  triangles.filter (fun t => strictlyOutside t pt) ++
    (eraseMarked (badEdges triangles pt) (markDuplicates (badEdges triangles pt))).map
      (fun e => Triangle.new e.p0 e.p1 pt)

/-- The value `dmax` of lines 127-129, where `first` is `points[0]`. -/
def dmax (first : Point) (points : List Point) : ℚ :=
  let b := boundingBox first points
  max (b.2.1 - b.1) (b.2.2.2 - b.2.2.1)

/-- The number of entries equal to the edge `A-B`, under `Edge::operator==`, in
the edge list collected from the bad triangles at the third insertion, for the
input `[A, B, C]` (lines 144-152 for `pt = C`). -/
def copiesOfFirstEdge (A B C : Point) : ℕ :=
  (badEdges (workingSet (superCorners A [A, B, C]) [A, B]) C).countP
    (fun f => (Edge.mk A B).operatorEq f)

/-! ## The duplicate-edge removal as the specification words it -/

/-- The entries of `edges` that are equal, under `Edge::operator==` (in either
endpoint order), to no other entry of the list, in their original order. -/
def uniqueEntries (edges : List Edge) : List Edge :=
  (edges.enum.filter
    (fun ie => edges.enum.all (fun jf => decide (jf.1 = ie.1) || !(ie.2.operatorEq jf.2)))).map
    (fun ie => ie.2)

/-! ## Geometric notions used by the statements -/

/-- Twice the signed area of the triangle `a`, `b`, `p`: positive when `p` is
strictly to the left of the directed line from `a` to `b`, negative when it is
strictly to the right, zero when the three points are collinear. -/
def cross (a b p : Point) : ℚ :=
  (b.x - a.x) * (p.y - a.y) - (b.y - a.y) * (p.x - a.x)

/-- The point `p` lies strictly inside the triangle `a`, `b`, `c`: it is
strictly on the same side of the three directed lines `a b`, `b c`, `c a`. -/
def strictlyInside (a b c p : Point) : Prop :=
  (0 < cross a b p ∧ 0 < cross b c p ∧ 0 < cross c a p) ∨
  (cross a b p < 0 ∧ cross b c p < 0 ∧ cross c a p < 0)

/-- The point `p` is one of the three super-triangle corners `s`. -/
def isCorner (s : Point × Point × Point) (p : Point) : Prop :=
  p = s.1 ∨ p = s.2.1 ∨ p = s.2.2

/-! ## Auxiliary lemmas -/

/-! ### Equality operators and the loops as list functions -/

theorem pointEq_iff (a b : Point) : a.operatorEq b = true ↔ a = b := by
  cases a; cases b
  simp [Point.operatorEq]
  constructor
  · rintro ⟨h1, h2⟩; exact ⟨h1.symm, h2.symm⟩
  · rintro ⟨h1, h2⟩; exact ⟨h1.symm, h2.symm⟩

theorem edgeEq_iff (a b c d : Point) :
    Edge.operatorEq ⟨a, b⟩ ⟨c, d⟩ = true ↔ (a = c ∧ b = d) ∨ (a = d ∧ b = c) := by
  simp only [Edge.operatorEq, Bool.or_eq_true, Bool.and_eq_true, pointEq_iff]
  constructor
  · rintro (⟨h1, h2⟩ | ⟨h1, h2⟩)
    · exact Or.inl ⟨h1.symm, h2.symm⟩
    · exact Or.inr ⟨h2.symm, h1.symm⟩
  · rintro (⟨h1, h2⟩ | ⟨h1, h2⟩)
    · exact Or.inl ⟨h1.symm, h2.symm⟩
    · exact Or.inr ⟨h2.symm, h1.symm⟩

theorem classify_foldl (pt : Point) (ts : List Triangle) (acc : List Edge × List Triangle) :
    ts.foldl
      (fun acc tri =>
        if isBad tri pt then (acc.1 ++ [tri.e0, tri.e1, tri.e2], acc.2)
        else (acc.1, acc.2 ++ [tri])) acc =
    (acc.1 ++ (ts.filter (fun t => isBad t pt)).flatMap (fun t => [t.e0, t.e1, t.e2]),
     acc.2 ++ ts.filter (fun t => !(isBad t pt))) := by
  induction ts generalizing acc with
  | nil => simp
  | cons t ts ih =>
    rw [List.foldl_cons, ih]
    by_cases h : isBad t pt = true
    · simp [h, List.filter_cons]
    · simp [h, List.filter_cons]

theorem classify_eq (pt : Point) (ts : List Triangle) :
    classify pt ts =
      ((ts.filter (fun t => isBad t pt)).flatMap (fun t => [t.e0, t.e1, t.e2]),
       ts.filter (fun t => !(isBad t pt))) := by
  unfold classify
  rw [classify_foldl]
  simp

theorem collectEdges_foldl (ts : List Triangle) (acc : List Edge) :
    ts.foldl (fun edges tri => edges ++ [tri.e0, tri.e1, tri.e2]) acc =
      acc ++ ts.flatMap (fun t => [t.e0, t.e1, t.e2]) := by
  induction ts generalizing acc with
  | nil => simp
  | cons t ts ih => rw [List.foldl_cons, ih]; simp

theorem collectEdges_eq (ts : List Triangle) :
    collectEdges ts = ts.flatMap (fun t => [t.e0, t.e1, t.e2]) := by
  unfold collectEdges
  rw [collectEdges_foldl]
  simp

theorem mem_eraseMarked {e : Edge} {es : List Edge} {fl : List Bool}
    (h : e ∈ eraseMarked es fl) : e ∈ es := by
  unfold eraseMarked at h
  rw [List.mem_map] at h
  obtain ⟨ie, hie, rfl⟩ := h
  exact List.snd_mem_of_mem_enum (List.mem_filter.mp hie).1


theorem insertPoint_eq (ts : List Triangle) (pt : Point) :
    insertPoint ts pt =
      ts.filter (fun t => !(isBad t pt)) ++
        (eraseMarked (badEdges ts pt) (markDuplicates (badEdges ts pt))).map
          (fun e => Triangle.new e.p0 e.p1 pt) := by
  unfold insertPoint badEdges
  rw [classify_eq]

theorem mem_insertPoint {t : Triangle} {ts : List Triangle} {pt : Point}
    (h : t ∈ insertPoint ts pt) :
    (t ∈ ts ∧ isBad t pt = false) ∨
    (∃ b ∈ ts, isBad b pt = true ∧ ∃ e, (e = b.e0 ∨ e = b.e1 ∨ e = b.e2) ∧
      t = Triangle.new e.p0 e.p1 pt) := by
  rw [insertPoint_eq, List.mem_append] at h
  rcases h with h | h
  · left
    simpa using h
  · right
    rw [List.mem_map] at h
    obtain ⟨e, he, rfl⟩ := h
    have he2 := mem_eraseMarked he
    unfold badEdges at he2
    rw [List.mem_flatMap] at he2
    obtain ⟨b, hb, heb⟩ := he2
    rw [List.mem_filter] at hb
    refine ⟨b, hb.1, hb.2, e, ?_, rfl⟩
    simpa using heb

theorem workingSet_append (s : Point × Point × Point) (pts : List Point) (p : Point) :
    workingSet s (pts ++ [p]) = insertPoint (workingSet s pts) p := by
  simp [workingSet, List.foldl_append]

/-- Every triangle of the working set was built by the constructor from its
own vertices. -/
theorem workingSet_new (s : Point × Point × Point) (pts : List Point) :
    ∀ t ∈ workingSet s pts, t = Triangle.new t.p0 t.p1 t.p2 := by
  induction pts using List.reverseRecOn with
  | nil =>
    intro t ht
    simp [workingSet] at ht
    subst ht
    rfl
  | append_singleton pts p ih =>
    intro t ht
    rw [workingSet_append] at ht
    rcases mem_insertPoint ht with ⟨h, _⟩ | ⟨b, _, _, e, _, rfl⟩
    · exact ih t h
    · rfl

theorem mem_triangulate_triangles {points : List Point} {t : Triangle}
    (h : t ∈ (triangulate points).triangles) :
    ∃ first rest, points = first :: rest ∧
      t ∈ workingSet (superCorners first points) points ∧
      touchesSuper (superCorners first points) t = false := by
  unfold triangulate at h
  split at h
  · simp at h
  · rename_i hlen
    cases points with
    | nil => exact absurd (by simp) hlen
    | cons first rest =>
      refine ⟨first, rest, rfl, ?_⟩
      simp only [triangulateFrom, List.get_eq_getElem, List.getElem_cons_zero,
        List.mem_filter] at h
      simpa using h

/-! ### The working set over the insertions -/

theorem isBad_eq_false_iff (t : Triangle) (pt : Point) :
    isBad t pt = false ↔
      t.circle = none ∨ ∃ w, distMinusRadius t pt = some w ∧ eps < w := by
  unfold isBad distMinusRadius
  cases hc : t.circle with
  | none => simp
  | some c =>
    simp only [Option.some.injEq, decide_eq_false_iff_not, not_le, false_or,
      exists_eq_left', reduceCtorEq]

theorem touchesSuper_new_corners (s : Point × Point × Point) :
    touchesSuper s (Triangle.new s.1 s.2.1 s.2.2) = true := by
  have h : s.1.operatorEq s.1 = true := (pointEq_iff _ _).2 rfl
  simp [touchesSuper, Triangle.new, h]

theorem touchesSuper_eq_false {s : Point × Point × Point} {t : Triangle}
    (h : touchesSuper s t = false) :
    (t.p0 ≠ s.1 ∧ t.p1 ≠ s.1 ∧ t.p2 ≠ s.1) ∧
    (t.p0 ≠ s.2.1 ∧ t.p1 ≠ s.2.1 ∧ t.p2 ≠ s.2.1) ∧
    (t.p0 ≠ s.2.2 ∧ t.p1 ≠ s.2.2 ∧ t.p2 ≠ s.2.2) := by
  have e : ∀ a b : Point, a.operatorEq b = false ↔ a ≠ b := by
    intro a b
    constructor
    · intro h1 h2
      rw [(pointEq_iff a b).2 h2] at h1
      cases h1
    · intro h1
      cases hh : a.operatorEq b
      · rfl
      · exact absurd ((pointEq_iff a b).1 hh) h1
  simp only [touchesSuper, Bool.or_eq_false_iff, e] at h
  tauto

/-- Every triangle of the working set is the untouched super-triangle, or was
created when its third vertex was inserted and has been kept at every later
insertion. -/
theorem workingSet_kept (s : Point × Point × Point) (pts : List Point) :
    ∀ t ∈ workingSet s pts,
      t = Triangle.new s.1 s.2.1 s.2.2 ∨
      ∃ pre post, pts = pre ++ t.p2 :: post ∧ ∀ P ∈ post, isBad t P = false := by
  induction pts using List.reverseRecOn with
  | nil =>
    intro t ht
    left
    simpa [workingSet] using ht
  | append_singleton pts p ih =>
    intro t ht
    rw [workingSet_append] at ht
    rcases mem_insertPoint ht with ⟨h, hb⟩ | ⟨b, _, _, e, _, rfl⟩
    · rcases ih t h with h0 | ⟨pre, post, hpts, hpost⟩
      · exact Or.inl h0
      · right
        refine ⟨pre, post ++ [p], by simp [hpts], ?_⟩
        intro P hP
        rcases List.mem_append.mp hP with hP | hP
        · exact hpost P hP
        · simp at hP
          subst hP
          exact hb
    · right
      exact ⟨pts, [], by simp [Triangle.new], by simp⟩

theorem flatMap_edges_of_new (l : List Triangle)
    (h : ∀ t ∈ l, t = Triangle.new t.p0 t.p1 t.p2) :
    l.flatMap (fun t => [t.e0, t.e1, t.e2]) =
      l.flatMap (fun t => [Edge.mk t.p0 t.p1, Edge.mk t.p1 t.p2, Edge.mk t.p0 t.p2]) := by
  induction l with
  | nil => rfl
  | cons t l ih =>
    have ht := h t (List.mem_cons_self _ _)
    have e0 : t.e0 = Edge.mk t.p0 t.p1 := by rw [ht]; rfl
    have e1 : t.e1 = Edge.mk t.p1 t.p2 := by rw [ht]; rfl
    have e2 : t.e2 = Edge.mk t.p0 t.p2 := by rw [ht]; rfl
    simp only [List.flatMap_cons, e0, e1, e2]
    rw [ih (fun t ht => h t (List.mem_cons_of_mem _ ht))]

theorem length_flatMap_edges (l : List Triangle) :
    (l.flatMap (fun t => [t.e0, t.e1, t.e2])).length = 3 * l.length := by
  induction l with
  | nil => rfl
  | cons t l ih => simp only [List.flatMap_cons, List.length_append, ih, List.length_cons,
      List.length_nil]; omega

theorem circumcircle_equidistant (p0 p1 p2 : Point)
    (h : (p1.x - p0.x) * (p2.y - p0.y) - (p1.y - p0.y) * (p2.x - p0.x) ≠ 0) :
    ∃ c, circumcircle p0 p1 p2 = some c ∧
      c.radius = (p0.x - c.x) * (p0.x - c.x) + (p0.y - c.y) * (p0.y - c.y) ∧
      c.radius = (p1.x - c.x) * (p1.x - c.x) + (p1.y - c.y) * (p1.y - c.y) ∧
      c.radius = (p2.x - c.x) * (p2.x - c.x) + (p2.y - c.y) * (p2.y - c.y) := by
  have h2 : (2 : ℚ) * ((p1.x - p0.x) * (p2.y - p0.y) - (p1.y - p0.y) * (p2.x - p0.x)) ≠ 0 :=
    mul_ne_zero two_ne_zero h
  cases hcc : circumcircle p0 p1 p2 with
  | none => simp [circumcircle, h2] at hcc
  | some c =>
    simp only [circumcircle, if_neg h2, Option.some.injEq] at hcc
    subst hcc
    refine ⟨_, rfl, rfl, ?_, ?_⟩
    · simp only
      field_simp
      ring
    · simp only
      field_simp
      ring

/-! ### The duplicate flags (lines 159-175) -/

theorem getD_set_true (l : List Bool) (i k : ℕ) (h : l.getD k false = true) :
    (l.set i true).getD k false = true := by
  rw [List.getD_eq_getElem?_getD] at h ⊢
  rw [List.getElem?_set]
  split
  · split
    · rfl
    · rename_i h1 h2
      subst h1
      rw [List.getElem?_eq_none (by omega)] at h
      simp at h
  · exact h

theorem getD_set_self (l : List Bool) (i : ℕ) (h : i < l.length) :
    (l.set i true).getD i false = true := by
  rw [List.getD_eq_getElem?_getD, List.getElem?_set]
  simp [h]

theorem markPair_length (r : List Bool) (a b : ℕ × Edge) :
    (markPair r a b).length = r.length := by
  unfold markPair
  split
  · rfl
  · split
    · simp
    · rfl

theorem markPair_mono (r : List Bool) (a b : ℕ × Edge) (k : ℕ)
    (h : r.getD k false = true) : (markPair r a b).getD k false = true := by
  unfold markPair
  split
  · exact h
  · split
    · exact getD_set_true _ _ _ (getD_set_true _ _ _ h)
    · exact h

theorem markPair_hit (r : List Bool) (a b : ℕ × Edge) (hne : a.1 ≠ b.1)
    (heq : a.2.operatorEq b.2 = true) (ha : a.1 < r.length) :
    (markPair r a b).getD a.1 false = true := by
  unfold markPair
  rw [if_neg hne, if_pos heq]
  exact getD_set_true _ _ _ (getD_set_self _ _ ha)

theorem foldl_flags_length {α : Type} (f : List Bool → α → List Bool)
    (hlen : ∀ r a, (f r a).length = r.length) (L : List α) (r : List Bool) :
    (L.foldl f r).length = r.length := by
  induction L generalizing r with
  | nil => rfl
  | cons a L ih => rw [List.foldl_cons, ih, hlen]

theorem foldl_flags_mono {α : Type} (f : List Bool → α → List Bool) (k : ℕ)
    (hmono : ∀ r a, r.getD k false = true → (f r a).getD k false = true)
    (L : List α) (r : List Bool) (h : r.getD k false = true) :
    (L.foldl f r).getD k false = true := by
  induction L generalizing r with
  | nil => exact h
  | cons a L ih => rw [List.foldl_cons]; exact ih _ (hmono r a h)

theorem foldl_flags_hit {α : Type} (f : List Bool → α → List Bool) (k n : ℕ)
    (hlen : ∀ r a, (f r a).length = r.length)
    (hmono : ∀ r a, r.getD k false = true → (f r a).getD k false = true)
    (a : α) (hit : ∀ r, r.length = n → (f r a).getD k false = true)
    (L : List α) (ha : a ∈ L) (r : List Bool) (hr : r.length = n) :
    (L.foldl f r).getD k false = true := by
  induction L generalizing r with
  | nil => cases ha
  | cons b L ih =>
    rw [List.foldl_cons]
    rcases List.mem_cons.mp ha with rfl | ha
    · exact foldl_flags_mono f k hmono L _ (hit r hr)
    · exact ih ha _ (by rw [hlen, hr])

/-- Two entries at different positions that are equal under `Edge::operator==`
are both flagged (here: the first of them). -/
theorem markDuplicates_hit (es : List Edge) (a b : ℕ × Edge)
    (ha : a ∈ es.enum) (hb : b ∈ es.enum) (hne : a.1 ≠ b.1)
    (heq : a.2.operatorEq b.2 = true) :
    (markDuplicates es).getD a.1 false = true := by
  unfold markDuplicates
  have hinner_len : ∀ (r : List Bool) (it1 : ℕ × Edge),
      (es.enum.foldl (fun remove it2 => markPair remove it1 it2) r).length = r.length :=
    fun r it1 => foldl_flags_length _ (fun r b => markPair_length r it1 b) _ r
  have hinner_mono : ∀ (r : List Bool) (it1 : ℕ × Edge), r.getD a.1 false = true →
      (es.enum.foldl (fun remove it2 => markPair remove it1 it2) r).getD a.1 false = true :=
    fun r it1 h => foldl_flags_mono _ _ (fun r b h => markPair_mono r it1 b _ h) _ r h
  refine foldl_flags_hit _ a.1 es.length hinner_len hinner_mono a ?_ es.enum ha _ (by simp)
  intro r hr
  refine foldl_flags_hit _ a.1 es.length (fun r b => markPair_length r a b)
    (fun r b h => markPair_mono r a b _ h) b ?_ es.enum hb r hr
  intro r' hr'
  exact markPair_hit r' a b hne heq (by rw [hr']; exact List.fst_lt_of_mem_enum ha)

theorem edgeEq_symm (e f : Edge) : e.operatorEq f = f.operatorEq e := by
  cases e; cases f
  rw [Bool.eq_iff_iff, edgeEq_iff, edgeEq_iff]
  constructor
  · rintro (⟨h1, h2⟩ | ⟨h1, h2⟩)
    · exact Or.inl ⟨h1.symm, h2.symm⟩
    · exact Or.inr ⟨h2.symm, h1.symm⟩
  · rintro (⟨h1, h2⟩ | ⟨h1, h2⟩)
    · exact Or.inl ⟨h1.symm, h2.symm⟩
    · exact Or.inr ⟨h2.symm, h1.symm⟩

theorem enumFrom_pairwise (n : ℕ) (es : List Edge) :
    (es.enumFrom n).Pairwise (fun a b => a.1 ≠ b.1) := by
  induction es generalizing n with
  | nil => simp
  | cons e es ih =>
    rw [List.enumFrom_cons, List.pairwise_cons]
    refine ⟨?_, ih (n + 1)⟩
    intro b hb
    have := List.le_fst_of_mem_enumFrom hb
    simp only [ne_eq]
    omega

/-- No two retained entries are equal under `Edge::operator==`. -/
theorem eraseMarked_pairwise (es : List Edge) :
    (eraseMarked es (markDuplicates es)).Pairwise (fun e f => e.operatorEq f = false) := by
  unfold eraseMarked
  rw [List.pairwise_map]
  have h1 : (es.enum.filter (fun ie => !((markDuplicates es).getD ie.1 false))).Pairwise
      (fun a b => a.1 ≠ b.1) := (enumFrom_pairwise 0 es).filter _
  refine List.Pairwise.imp_of_mem ?_ h1
  intro a b ha hb hne
  rw [List.mem_filter] at ha hb
  cases heq : a.2.operatorEq b.2
  · rfl
  · have := markDuplicates_hit es a b ha.1 hb.1 hne heq
    have h2 := ha.2
    rw [this] at h2
    cases h2

/-! ### The bounding box and the super-triangle corners (lines 116-138) -/

theorem boundingBox_foldl (pts : List Point) (b : ℚ × ℚ × ℚ × ℚ) :
    (pts.foldl
      (fun b pt => (min b.1 pt.x, max b.2.1 pt.x, min b.2.2.1 pt.y, max b.2.2.2 pt.y)) b).1 ≤ b.1 ∧
    b.2.1 ≤ (pts.foldl
      (fun b pt => (min b.1 pt.x, max b.2.1 pt.x, min b.2.2.1 pt.y, max b.2.2.2 pt.y)) b).2.1 ∧
    (pts.foldl
      (fun b pt => (min b.1 pt.x, max b.2.1 pt.x, min b.2.2.1 pt.y, max b.2.2.2 pt.y)) b).2.2.1
        ≤ b.2.2.1 ∧
    b.2.2.2 ≤ (pts.foldl
      (fun b pt => (min b.1 pt.x, max b.2.1 pt.x, min b.2.2.1 pt.y, max b.2.2.2 pt.y)) b).2.2.2 ∧
    ∀ p ∈ pts,
      (pts.foldl
        (fun b pt => (min b.1 pt.x, max b.2.1 pt.x, min b.2.2.1 pt.y, max b.2.2.2 pt.y)) b).1
          ≤ p.x ∧
      p.x ≤ (pts.foldl
        (fun b pt => (min b.1 pt.x, max b.2.1 pt.x, min b.2.2.1 pt.y, max b.2.2.2 pt.y)) b).2.1 ∧
      (pts.foldl
        (fun b pt => (min b.1 pt.x, max b.2.1 pt.x, min b.2.2.1 pt.y, max b.2.2.2 pt.y)) b).2.2.1
          ≤ p.y ∧
      p.y ≤ (pts.foldl
        (fun b pt => (min b.1 pt.x, max b.2.1 pt.x, min b.2.2.1 pt.y, max b.2.2.2 pt.y)) b).2.2.2 := by
  induction pts generalizing b with
  | nil => simp
  | cons q pts ih =>
    rw [List.foldl_cons]
    obtain ⟨h1, h2, h3, h4, h5⟩ := ih (min b.1 q.x, max b.2.1 q.x, min b.2.2.1 q.y, max b.2.2.2 q.y)
    simp only at h1 h2 h3 h4
    refine ⟨le_trans h1 (min_le_left _ _), le_trans (le_max_left _ _) h2,
      le_trans h3 (min_le_left _ _), le_trans (le_max_left _ _) h4, ?_⟩
    intro p hp
    rcases List.mem_cons.mp hp with rfl | hp
    · exact ⟨le_trans h1 (min_le_right _ _), le_trans (le_max_right _ _) h2,
        le_trans h3 (min_le_right _ _), le_trans (le_max_right _ _) h4⟩
    · exact h5 p hp

/-- Every input point lies in the bounding box. -/
theorem boundingBox_bounds (first : Point) (points : List Point) (p : Point)
    (hp : p ∈ points) :
    (boundingBox first points).1 ≤ p.x ∧ p.x ≤ (boundingBox first points).2.1 ∧
    (boundingBox first points).2.2.1 ≤ p.y ∧ p.y ≤ (boundingBox first points).2.2.2 :=
  (boundingBox_foldl points (first.x, first.x, first.y, first.y)).2.2.2.2 p hp

/-- When `dmax` is positive, no input point is a super-triangle corner. -/
theorem superCorners_ne (first : Point) (points : List Point) (p : Point)
    (hp : p ∈ points)
    (hd : 0 < max ((boundingBox first points).2.1 - (boundingBox first points).1)
      ((boundingBox first points).2.2.2 - (boundingBox first points).2.2.1)) :
    ¬ isCorner (superCorners first points) p := by
  obtain ⟨h1, h2, h3, h4⟩ := boundingBox_bounds first points p hp
  have hx := le_max_left ((boundingBox first points).2.1 - (boundingBox first points).1)
      ((boundingBox first points).2.2.2 - (boundingBox first points).2.2.1)
  have hy := le_max_right ((boundingBox first points).2.1 - (boundingBox first points).1)
      ((boundingBox first points).2.2.2 - (boundingBox first points).2.2.1)
  rintro (h | h | h)
  · have := congrArg Point.x h
    simp only [superCorners] at this
    linarith
  · have := congrArg Point.y h
    simp only [superCorners] at this
    linarith
  · have := congrArg Point.x h
    simp only [superCorners] at this
    linarith

theorem touchesSuper_of_corner_p0 {s : Point × Point × Point} {t : Triangle}
    (h : isCorner s t.p0) : touchesSuper s t = true := by
  have e : ∀ a b : Point, a = b → a.operatorEq b = true :=
    fun a b hab => (pointEq_iff a b).2 hab
  unfold touchesSuper
  rcases h with h | h | h
  · simp [e _ _ h]
  · simp [e _ _ h]
  · simp [e _ _ h]

/-- After the first insertion every triangle has a corner as `p0`, and every
edge starts at a corner and ends at a corner or at the inserted point. -/
theorem workingSet_one (s : Point × Point × Point) (A : Point) :
    ∀ t ∈ workingSet s [A], isCorner s t.p0 ∧
      ∀ e, (e = t.e0 ∨ e = t.e1 ∨ e = t.e2) →
        isCorner s e.p0 ∧ (isCorner s e.p1 ∨ e.p1 = A) := by
  intro t ht
  have hws : workingSet s [A] = insertPoint [Triangle.new s.1 s.2.1 s.2.2] A := rfl
  rw [hws] at ht
  rcases mem_insertPoint ht with ⟨h, _⟩ | ⟨b, hb, _, e, he, rfl⟩
  · rw [List.mem_singleton] at h
    subst h
    refine ⟨Or.inl rfl, ?_⟩
    rintro e (rfl | rfl | rfl) <;> simp [Triangle.new, isCorner]
  · rw [List.mem_singleton] at hb
    subst hb
    rcases he with rfl | rfl | rfl
    · refine ⟨Or.inl rfl, ?_⟩
      rintro e (rfl | rfl | rfl) <;> simp [Triangle.new, isCorner]
    · refine ⟨Or.inr (Or.inl rfl), ?_⟩
      rintro e (rfl | rfl | rfl) <;> simp [Triangle.new, isCorner]
    · refine ⟨Or.inl rfl, ?_⟩
      rintro e (rfl | rfl | rfl) <;> simp [Triangle.new, isCorner]

/-- After the second insertion every triangle has a corner as `p0`, and every
edge starts at a corner or is the edge from the first to the second point. -/
theorem workingSet_two (s : Point × Point × Point) (A B : Point) :
    ∀ t ∈ workingSet s [A, B], isCorner s t.p0 ∧
      ∀ e, (e = t.e0 ∨ e = t.e1 ∨ e = t.e2) → isCorner s e.p0 ∨ e = Edge.mk A B := by
  intro t ht
  have hws : workingSet s [A, B] = insertPoint (workingSet s [A]) B := rfl
  rw [hws] at ht
  rcases mem_insertPoint ht with ⟨h, _⟩ | ⟨b, hb, _, e, he, rfl⟩
  · obtain ⟨h0, h1⟩ := workingSet_one s A t h
    exact ⟨h0, fun e he => Or.inl (h1 e he).1⟩
  · obtain ⟨_, h1⟩ := workingSet_one s A b hb
    obtain ⟨hc0, hc1⟩ := h1 e he
    refine ⟨hc0, ?_⟩
    rintro f (rfl | rfl | rfl)
    · exact Or.inl hc0
    · rcases hc1 with hc1 | hc1
      · exact Or.inl hc1
      · right
        simp [Triangle.new, hc1]
    · exact Or.inl hc0

theorem edgeEq_self (e : Edge) : e.operatorEq e = true := by
  cases e
  rw [edgeEq_iff]
  exact Or.inl ⟨rfl, rfl⟩

theorem pairwise_const_length {x : Edge} (L : List Edge)
    (hp : L.Pairwise (fun e f => e.operatorEq f = false)) (hx : ∀ e ∈ L, e = x) :
    L = [] ∨ L = [x] := by
  cases L with
  | nil => exact Or.inl rfl
  | cons a L =>
    right
    have ha := hx a (List.mem_cons_self _ _)
    subst ha
    cases L with
    | nil => rfl
    | cons b L =>
      have hb := hx b (List.mem_cons_of_mem _ (List.mem_cons_self _ _))
      subst hb
      have := (List.pairwise_cons.mp hp).1 b (List.mem_cons_self _ _)
      rw [edgeEq_self] at this
      cases this

/-- The triangles returned for an input of three points. -/
theorem triangulateFrom_three (A B C : Point) :
    (triangulateFrom A [A, B, C]).triangles = [] ∨
    (triangulateFrom A [A, B, C]).triangles = [Triangle.new A B C] := by
  have hws : workingSet (superCorners A [A, B, C]) [A, B, C] =
      insertPoint (workingSet (superCorners A [A, B, C]) [A, B]) C := rfl
  simp only [triangulateFrom, hws, insertPoint_eq, List.filter_append, List.filter_map]
  have hkept : List.filter (fun tri => !(touchesSuper (superCorners A [A, B, C]) tri))
      (List.filter (fun t => !(isBad t C)) (workingSet (superCorners A [A, B, C]) [A, B])) = [] := by
    rw [List.filter_eq_nil_iff]
    intro t ht
    have ht2 := (List.mem_filter.mp ht).1
    rw [touchesSuper_of_corner_p0 (workingSet_two _ A B t ht2).1]
    simp
  rw [hkept, List.nil_append]
  have hL := pairwise_const_length (x := Edge.mk A B)
    (List.filter ((fun tri => !(touchesSuper (superCorners A [A, B, C]) tri)) ∘
        fun e => Triangle.new e.p0 e.p1 C)
      (eraseMarked (badEdges (workingSet (superCorners A [A, B, C]) [A, B]) C)
        (markDuplicates (badEdges (workingSet (superCorners A [A, B, C]) [A, B]) C))))
    ((eraseMarked_pairwise _).sublist (List.filter_sublist _)) ?_
  · rcases hL with hL | hL
    · left
      rw [hL]
      rfl
    · right
      rw [hL]
      rfl
  · intro e he
    rw [List.mem_filter] at he
    obtain ⟨he1, he2⟩ := he
    have he3 := mem_eraseMarked he1
    unfold badEdges at he3
    rw [List.mem_flatMap] at he3
    obtain ⟨b, hb, heb⟩ := he3
    have hb2 := (List.mem_filter.mp hb).1
    have hedge : e = b.e0 ∨ e = b.e1 ∨ e = b.e2 := by simpa using heb
    rcases (workingSet_two _ A B b hb2).2 e hedge with hc | hc
    · have : touchesSuper (superCorners A [A, B, C]) (Triangle.new e.p0 e.p1 C) = true :=
        touchesSuper_of_corner_p0 (t := Triangle.new e.p0 e.p1 C) hc
      simp [this] at he2
    · exact hc

/-! ### The circumcircle under a permutation of the vertices -/

theorem circumcircle_center (p0 p1 p2 : Point) (c : Circle)
    (hc : circumcircle p0 p1 p2 = some c) :
    c.x = ((p2.y - p0.y) * (p1.x * p1.x - p0.x * p0.x + p1.y * p1.y - p0.y * p0.y) +
        (p0.y - p1.y) * (p2.x * p2.x - p0.x * p0.x + p2.y * p2.y - p0.y * p0.y)) *
        (1 / (2 * ((p1.x - p0.x) * (p2.y - p0.y) - (p1.y - p0.y) * (p2.x - p0.x)))) ∧
    c.y = ((p0.x - p2.x) * (p1.x * p1.x - p0.x * p0.x + p1.y * p1.y - p0.y * p0.y) +
        (p1.x - p0.x) * (p2.x * p2.x - p0.x * p0.x + p2.y * p2.y - p0.y * p0.y)) *
        (1 / (2 * ((p1.x - p0.x) * (p2.y - p0.y) - (p1.y - p0.y) * (p2.x - p0.x)))) := by
  unfold circumcircle at hc
  simp only at hc
  split at hc
  · cases hc
  · cases hc
    exact ⟨rfl, rfl⟩

theorem circumcircle_swap01 (p0 p1 p2 : Point)
    (h : (p1.x - p0.x) * (p2.y - p0.y) - (p1.y - p0.y) * (p2.x - p0.x) ≠ 0) :
    circumcircle p1 p0 p2 = circumcircle p0 p1 p2 := by
  have h' : (p0.x - p1.x) * (p2.y - p1.y) - (p0.y - p1.y) * (p2.x - p1.x) ≠ 0 := by
    intro hz
    apply h
    linear_combination -hz
  obtain ⟨c, hc, _, r1, _⟩ := circumcircle_equidistant p0 p1 p2 h
  obtain ⟨d, hd, r0', _, _⟩ := circumcircle_equidistant p1 p0 p2 h'
  obtain ⟨cx, cy⟩ := circumcircle_center p0 p1 p2 c hc
  obtain ⟨dx, dy⟩ := circumcircle_center p1 p0 p2 d hd
  have ex : d.x = c.x := by
    rw [cx, dx]
    field_simp
    ring
  have ey : d.y = c.y := by
    rw [cy, dy]
    field_simp
    ring
  have er : d.radius = c.radius := by rw [r0', r1, ex, ey]
  rw [hc, hd]
  cases c
  cases d
  simp only at ex ey er
  rw [ex, ey, er]

theorem circumcircle_swap12 (p0 p1 p2 : Point)
    (h : (p1.x - p0.x) * (p2.y - p0.y) - (p1.y - p0.y) * (p2.x - p0.x) ≠ 0) :
    circumcircle p0 p2 p1 = circumcircle p0 p1 p2 := by
  have h' : (p2.x - p0.x) * (p1.y - p0.y) - (p2.y - p0.y) * (p1.x - p0.x) ≠ 0 := by
    intro hz
    apply h
    linear_combination -hz
  obtain ⟨c, hc, r0, _, _⟩ := circumcircle_equidistant p0 p1 p2 h
  obtain ⟨d, hd, r0', _, _⟩ := circumcircle_equidistant p0 p2 p1 h'
  obtain ⟨cx, cy⟩ := circumcircle_center p0 p1 p2 c hc
  obtain ⟨dx, dy⟩ := circumcircle_center p0 p2 p1 d hd
  have ex : d.x = c.x := by
    rw [cx, dx]
    field_simp
    ring
  have ey : d.y = c.y := by
    rw [cy, dy]
    field_simp
    ring
  have er : d.radius = c.radius := by rw [r0', r0, ex, ey]
  rw [hc, hd]
  cases c
  cases d
  simp only at ex ey er
  rw [ex, ey, er]

/-! ### The enclosure by the super-triangle and the vertices of the working set -/

/-- Every input point lies strictly inside the super-triangle when `dmax` is
positive. -/
theorem superCorners_strictlyInside (first : Point) (points : List Point) (p : Point)
    (hp : p ∈ points) (hd : 0 < dmax first points) :
    strictlyInside (superCorners first points).1 (superCorners first points).2.1
      (superCorners first points).2.2 p := by
  obtain ⟨h1, h2, h3, h4⟩ := boundingBox_bounds first points p hp
  have hx := le_max_left ((boundingBox first points).2.1 - (boundingBox first points).1)
      ((boundingBox first points).2.2.2 - (boundingBox first points).2.2.1)
  have hy := le_max_right ((boundingBox first points).2.1 - (boundingBox first points).1)
      ((boundingBox first points).2.2.2 - (boundingBox first points).2.2.1)
  simp only [dmax] at hd
  right
  simp only [cross, superCorners]
  generalize max ((boundingBox first points).2.1 - (boundingBox first points).1)
      ((boundingBox first points).2.2.2 - (boundingBox first points).2.2.1) = d at hd hx hy ⊢
  generalize (boundingBox first points).1 = xmin at h1 hx ⊢
  generalize (boundingBox first points).2.1 = xmax at h2 hx ⊢
  generalize (boundingBox first points).2.2.1 = ymin at h3 hy ⊢
  generalize (boundingBox first points).2.2.2 = ymax at h4 hy ⊢
  refine ⟨?_, ?_, ?_⟩
  · have e : (xmin + xmax) / 2 - ((xmin + xmax) / 2 - 20 * d) = 20 * d := by ring
    have f : (ymin + ymax) / 2 + 20 * d - ((ymin + ymax) / 2 - d) = 21 * d := by ring
    rw [e, f]
    have g : 20 * d * (p.y - ((ymin + ymax) / 2 - d)) -
        21 * d * (p.x - ((xmin + xmax) / 2 - 20 * d)) =
        d * (20 * (p.y - (ymin + ymax) / 2) - 21 * (p.x - (xmin + xmax) / 2) - 400 * d) := by
      ring
    rw [g]
    exact mul_neg_of_pos_of_neg hd (by linarith)
  · have g : ((xmin + xmax) / 2 + 20 * d - (xmin + xmax) / 2) *
          (p.y - ((ymin + ymax) / 2 + 20 * d)) -
        ((ymin + ymax) / 2 - d - ((ymin + ymax) / 2 + 20 * d)) * (p.x - (xmin + xmax) / 2) =
        d * (20 * (p.y - (ymin + ymax) / 2) + 21 * (p.x - (xmin + xmax) / 2) - 400 * d) := by
      ring
    rw [g]
    exact mul_neg_of_pos_of_neg hd (by linarith)
  · have g : ((xmin + xmax) / 2 - 20 * d - ((xmin + xmax) / 2 + 20 * d)) *
          (p.y - ((ymin + ymax) / 2 - d)) -
        ((ymin + ymax) / 2 - d - ((ymin + ymax) / 2 - d)) *
          (p.x - ((xmin + xmax) / 2 + 20 * d)) =
        d * (-40 * (p.y - (ymin + ymax) / 2) - 40 * d) := by
      ring
    rw [g]
    exact mul_neg_of_pos_of_neg hd (by linarith)

/-- Every vertex of a triangle of the working set is a super-triangle corner
or an inserted point. -/
theorem workingSet_vertices (s : Point × Point × Point) (pts : List Point) :
    ∀ t ∈ workingSet s pts, ∀ v, (v = t.p0 ∨ v = t.p1 ∨ v = t.p2) →
      isCorner s v ∨ v ∈ pts := by
  induction pts using List.reverseRecOn with
  | nil =>
    intro t ht v hv
    have ht' : t = Triangle.new s.1 s.2.1 s.2.2 := by simpa [workingSet] using ht
    subst ht'
    left
    rcases hv with rfl | rfl | rfl
    · exact Or.inl rfl
    · exact Or.inr (Or.inl rfl)
    · exact Or.inr (Or.inr rfl)
  | append_singleton pts p ih =>
    intro t ht v hv
    rw [workingSet_append] at ht
    have lift : ∀ w, isCorner s w ∨ w ∈ pts → isCorner s w ∨ w ∈ pts ++ [p] := by
      intro w hw
      rcases hw with hw | hw
      · exact Or.inl hw
      · exact Or.inr (List.mem_append_left _ hw)
    rcases mem_insertPoint ht with ⟨h, _⟩ | ⟨b, hb, _, e, he, rfl⟩
    · exact lift v (ih t h v hv)
    · have hbnew := workingSet_new s pts b hb
      have hp0 : isCorner s e.p0 ∨ e.p0 ∈ pts := by
        rcases he with rfl | rfl | rfl
        · exact ih b hb _ (Or.inl (by rw [hbnew]; rfl))
        · exact ih b hb _ (Or.inr (Or.inl (by rw [hbnew]; rfl)))
        · exact ih b hb _ (Or.inl (by rw [hbnew]; rfl))
      have hp1 : isCorner s e.p1 ∨ e.p1 ∈ pts := by
        rcases he with rfl | rfl | rfl
        · exact ih b hb _ (Or.inr (Or.inl (by rw [hbnew]; rfl)))
        · exact ih b hb _ (Or.inr (Or.inr (by rw [hbnew]; rfl)))
        · exact ih b hb _ (Or.inr (Or.inr (by rw [hbnew]; rfl)))
      rcases hv with rfl | rfl | rfl
      · exact lift _ hp0
      · exact lift _ hp1
      · right
        simp [Triangle.new]

theorem triangulate_edges_eq (points : List Point) :
    (triangulate points).edges =
      (triangulate points).triangles.flatMap (fun t => [t.e0, t.e1, t.e2]) := by
  unfold triangulate
  split
  · rfl
  · simp only [triangulateFrom, collectEdges_eq]

/-- The vertices of a returned triangle are input points. -/
theorem triangulate_vertices_mem {points : List Point} {t : Triangle}
    (ht : t ∈ (triangulate points).triangles) :
    t.p0 ∈ points ∧ t.p1 ∈ points ∧ t.p2 ∈ points := by
  obtain ⟨first, rest, _, hws, htouch⟩ := mem_triangulate_triangles ht
  obtain ⟨⟨a0, a1, a2⟩, ⟨b0, b1, b2⟩, ⟨c0, c1, c2⟩⟩ := touchesSuper_eq_false htouch
  have hv := workingSet_vertices _ _ t hws
  have key : ∀ v, (v = t.p0 ∨ v = t.p1 ∨ v = t.p2) →
      v ≠ (superCorners first points).1 → v ≠ (superCorners first points).2.1 →
      v ≠ (superCorners first points).2.2 → v ∈ points := by
    intro v hvt n0 n1 n2
    rcases hv v hvt with (h | h | h) | h
    · exact absurd h n0
    · exact absurd h n1
    · exact absurd h n2
    · exact h
  exact ⟨key _ (Or.inl rfl) a0 b0 c0, key _ (Or.inr (Or.inl rfl)) a1 b1 c1,
    key _ (Or.inr (Or.inr rfl)) a2 b2 c2⟩

/-! ### The duplicate flags: the converse, and the retained entries -/

theorem getD_set_true_inv (l : List Bool) (i k : ℕ)
    (h : (l.set i true).getD k false = true) : k = i ∨ l.getD k false = true := by
  by_cases hik : k = i
  · exact Or.inl hik
  · right
    rw [List.getD_eq_getElem?_getD] at h ⊢
    rw [List.getElem?_set] at h
    rw [if_neg (fun e => hik e.symm)] at h
    exact h

theorem markPair_sound (r : List Bool) (a b : ℕ × Edge) (k : ℕ)
    (h : (markPair r a b).getD k false = true) :
    r.getD k false = true ∨
      (a.1 ≠ b.1 ∧ a.2.operatorEq b.2 = true ∧ (k = a.1 ∨ k = b.1)) := by
  unfold markPair at h
  split at h
  · exact Or.inl h
  · rename_i hne
    split at h
    · rename_i heq
      rcases getD_set_true_inv _ _ _ h with h | h
      · exact Or.inr ⟨hne, heq, Or.inr h⟩
      · rcases getD_set_true_inv _ _ _ h with h | h
        · exact Or.inr ⟨hne, heq, Or.inl h⟩
        · exact Or.inl h
    · exact Or.inl h

theorem foldl_flags_inv {α : Type} (f : List Bool → α → List Bool) (L : List α)
    (Q : List Bool → Prop) (hstep : ∀ r a, a ∈ L → Q r → Q (f r a))
    (r : List Bool) (h : Q r) : Q (L.foldl f r) := by
  induction L generalizing r with
  | nil => exact h
  | cons a L ih =>
    rw [List.foldl_cons]
    exact ih (fun r b hb hq => hstep r b (List.mem_cons_of_mem _ hb) hq) _
      (hstep r a (List.mem_cons_self _ _) h)

/-- A flag is set only for an entry that is equal, under `Edge::operator==`, to
an entry at another position. -/
theorem markDuplicates_sound (es : List Edge) (k : ℕ)
    (h : (markDuplicates es).getD k false = true) :
    ∃ a ∈ es.enum, ∃ b ∈ es.enum,
      a.1 ≠ b.1 ∧ a.2.operatorEq b.2 = true ∧ (k = a.1 ∨ k = b.1) := by
  unfold markDuplicates at h
  by_contra hcon
  have hQ : (List.foldl
      (fun remove it1 => List.foldl (fun remove it2 => markPair remove it1 it2) remove es.enum)
      (List.replicate es.length false) es.enum).getD k false = false := by
    refine foldl_flags_inv _ es.enum (fun r => r.getD k false = false) ?_ _ ?_
    · intro r a ha hr
      refine foldl_flags_inv _ es.enum (fun r => r.getD k false = false) ?_ _ hr
      intro r' b hb hr'
      cases hm : (markPair r' a b).getD k false
      · rfl
      · rcases markPair_sound r' a b k hm with h1 | h1
        · rw [hr'] at h1
          cases h1
        · exact absurd ⟨a, ha, b, hb, h1⟩ hcon
    · show (List.replicate es.length false).getD k false = false
      rw [List.getD_eq_getElem?_getD]
      by_cases hk : k < es.length
      · simp [List.getElem?_replicate, hk]
      · rw [List.getElem?_eq_none (by simpa using hk)]
        rfl
  rw [hQ] at h
  cases h

theorem enum_index_unique {es : List Edge} {a b : ℕ × Edge}
    (ha : a ∈ es.enum) (hb : b ∈ es.enum) (h : a.1 = b.1) : a = b := by
  rw [List.mem_enum_iff_getElem?] at ha hb
  rw [h, hb] at ha
  cases a
  cases b
  simp only at h ha
  cases ha
  rw [h]

/-- The entry at a position is flagged exactly when it is equal, under
`Edge::operator==`, to the entry at another position. -/
theorem markDuplicates_flag_iff (es : List Edge) (ie : ℕ × Edge) (hie : ie ∈ es.enum) :
    (markDuplicates es).getD ie.1 false = true ↔
      ∃ jf ∈ es.enum, jf.1 ≠ ie.1 ∧ ie.2.operatorEq jf.2 = true := by
  constructor
  · intro h
    obtain ⟨a, ha, b, hb, hne, heq, hk | hk⟩ := markDuplicates_sound es ie.1 h
    · have := enum_index_unique hie ha hk
      subst this
      exact ⟨b, hb, fun e => hne e.symm, heq⟩
    · have := enum_index_unique hie hb hk
      subst this
      exact ⟨a, ha, hne, by rw [edgeEq_symm]; exact heq⟩
  · rintro ⟨jf, hjf, hne, heq⟩
    exact markDuplicates_hit es ie jf hie hjf (fun e => hne e.symm) heq

/-- The retained list is the list of the entries that are equal to no entry at
another position. -/
theorem eraseMarked_eq_uniqueEntries (es : List Edge) :
    eraseMarked es (markDuplicates es) = uniqueEntries es := by
  unfold eraseMarked uniqueEntries
  congr 1
  apply List.filter_congr
  intro ie hie
  cases hflag : (markDuplicates es).getD ie.1 false
  · symm
    simp only [Bool.not_false, List.all_eq_true, Bool.or_eq_true, decide_eq_true_eq,
      Bool.not_eq_true']
    intro jf hjf
    by_cases hj : jf.1 = ie.1
    · exact Or.inl hj
    · right
      cases heq : ie.2.operatorEq jf.2
      · rfl
      · have := (markDuplicates_flag_iff es ie hie).2 ⟨jf, hjf, hj, heq⟩
        rw [hflag] at this
        cases this
  · obtain ⟨jf, hjf, hne, heq⟩ := (markDuplicates_flag_iff es ie hie).1 hflag
    symm
    simp only [Bool.not_true, List.all_eq_false, Bool.or_eq_true, decide_eq_true_eq,
      Bool.not_eq_true', not_or, Bool.not_eq_false]
    exact ⟨jf, hjf, hne, heq⟩

theorem countP_eq_one_iff (p : ℕ × Edge → Bool) (L : List (ℕ × Edge))
    (hpw : L.Pairwise (fun a b => a.1 ≠ b.1)) (a : ℕ × Edge) (ha : a ∈ L)
    (hpa : p a = true) :
    L.countP p = 1 ↔ ∀ b ∈ L, b.1 ≠ a.1 → p b = false := by
  induction L with
  | nil => cases ha
  | cons x L ih =>
    obtain ⟨hx, hL⟩ := List.pairwise_cons.mp hpw
    rcases List.mem_cons.mp ha with rfl | haL
    · rw [List.countP_cons_of_pos _ _ hpa]
      constructor
      · intro h b hb hne
        rcases List.mem_cons.mp hb with rfl | hbL
        · exact absurd rfl hne
        · have h0 : L.countP p = 0 := by omega
          rw [List.countP_eq_zero] at h0
          simpa using h0 b hbL
      · intro h
        have h0 : L.countP p = 0 := by
          rw [List.countP_eq_zero]
          intro b hb
          rw [h b (List.mem_cons_of_mem _ hb) (fun e => hx b hb e.symm)]
          simp
        omega
    · have hxa : x.1 ≠ a.1 := hx a haL
      cases hpx : p x
      · rw [List.countP_cons_of_neg _ _ (by simp [hpx]), ih hL haL]
        constructor
        · intro h b hb hne
          rcases List.mem_cons.mp hb with rfl | hbL
          · exact hpx
          · exact h b hbL hne
        · intro h b hb hne
          exact h b (List.mem_cons_of_mem _ hb) hne
      · rw [List.countP_cons_of_pos _ _ hpx]
        have hpos : 0 < L.countP p := List.countP_pos_iff.mpr ⟨a, haL, hpa⟩
        constructor
        · intro h
          omega
        · intro h
          have := h x (List.mem_cons_self _ _) hxa
          rw [hpx] at this
          cases this

/-- An edge is retained exactly when it is an entry of the list and exactly one
entry of the list is equal to it under `Edge::operator==`. -/
theorem mem_uniqueEntries_iff (es : List Edge) (e : Edge) :
    e ∈ uniqueEntries es ↔ e ∈ es ∧ es.countP (fun f => e.operatorEq f) = 1 := by
  have hcount : es.countP (fun f => e.operatorEq f) =
      es.enum.countP (fun jf => e.operatorEq jf.2) := by
    conv_lhs => rw [← List.enum_map_snd es]
    rw [List.countP_map]
    rfl
  unfold uniqueEntries
  rw [List.mem_map]
  constructor
  · rintro ⟨ie, hie, rfl⟩
    rw [List.mem_filter] at hie
    obtain ⟨hmem, hall⟩ := hie
    refine ⟨List.snd_mem_of_mem_enum hmem, ?_⟩
    rw [hcount, countP_eq_one_iff (fun jf => ie.2.operatorEq jf.2) es.enum
      (enumFrom_pairwise 0 es) ie hmem (edgeEq_self _)]
    intro b hb hne
    rw [List.all_eq_true] at hall
    have := hall b hb
    simp only [Bool.or_eq_true, decide_eq_true_eq, Bool.not_eq_true'] at this
    rcases this with h | h
    · exact absurd h hne
    · exact h
  · rintro ⟨hmem, hc⟩
    obtain ⟨i, hi, hget⟩ := List.getElem_of_mem hmem
    have hie : (i, e) ∈ es.enum := by
      rw [List.mk_mem_enum_iff_getElem?, List.getElem?_eq_getElem hi, hget]
    refine ⟨(i, e), ?_, rfl⟩
    rw [List.mem_filter]
    refine ⟨hie, ?_⟩
    rw [hcount, countP_eq_one_iff (fun jf => e.operatorEq jf.2) es.enum
      (enumFrom_pairwise 0 es) (i, e) hie (edgeEq_self _)] at hc
    rw [List.all_eq_true]
    intro jf hjf
    simp only [Bool.or_eq_true, decide_eq_true_eq, Bool.not_eq_true']
    by_cases hj : jf.1 = i
    · exact Or.inl hj
    · exact Or.inr (hc jf hjf hj)

theorem edgeEq_trans {e f g : Edge} (h1 : e.operatorEq f = true) (h2 : f.operatorEq g = true) :
    e.operatorEq g = true := by
  cases e; cases f; cases g
  rw [edgeEq_iff] at h1 h2 ⊢
  rcases h1 with ⟨a, b⟩ | ⟨a, b⟩ <;> rcases h2 with ⟨c, d⟩ | ⟨c, d⟩
  · exact Or.inl ⟨a.trans c, b.trans d⟩
  · exact Or.inr ⟨a.trans c, b.trans d⟩
  · exact Or.inr ⟨a.trans d, b.trans c⟩
  · exact Or.inl ⟨a.trans d, b.trans c⟩

/-! ### The first insertion -/

/-- The circle of the super-triangle with centre of the bounding box
`(mx, my)` and positive `d = dmax`. -/
theorem circumcircle_super (mx my d : ℚ) (hd : 0 < d) :
    circumcircle ⟨mx - 20 * d, my - d⟩ ⟨mx, my + 20 * d⟩ ⟨mx + 20 * d, my - d⟩ =
      some ⟨mx, my - d / 42, 400 * d * d + (41 * d / 42) * (41 * d / 42)⟩ := by
  have hd0 : d ≠ 0 := ne_of_gt hd
  have hdet : (mx - (mx - 20 * d)) * (my - d - (my - d)) -
      (my + 20 * d - (my - d)) * (mx + 20 * d - (mx - 20 * d)) ≠ 0 := by
    have e : (mx - (mx - 20 * d)) * (my - d - (my - d)) -
        (my + 20 * d - (my - d)) * (mx + 20 * d - (mx - 20 * d)) = -840 * (d * d) := by ring
    rw [e]
    exact mul_ne_zero (by norm_num) (mul_ne_zero hd0 hd0)
  obtain ⟨c, hc, r0, _, _⟩ := circumcircle_equidistant
    ⟨mx - 20 * d, my - d⟩ ⟨mx, my + 20 * d⟩ ⟨mx + 20 * d, my - d⟩ hdet
  obtain ⟨cx, cy⟩ := circumcircle_center _ _ _ c hc
  simp only at cx cy r0
  have ex : c.x = mx := by
    rw [cx]
    field_simp
    ring
  have ey : c.y = my - d / 42 := by
    rw [cy]
    field_simp
    ring
  have er : c.radius = 400 * d * d + (41 * d / 42) * (41 * d / 42) := by
    rw [r0, ex, ey]
    ring
  rw [hc]
  cases c
  simp only at ex ey er
  rw [ex, ey, er]

/-- The super-triangle is bad for every input point when `dmax` is positive. -/
theorem isBad_super (first : Point) (points : List Point) (p : Point)
    (hp : p ∈ points) (hd : 0 < dmax first points) :
    isBad (Triangle.new (superCorners first points).1 (superCorners first points).2.1
      (superCorners first points).2.2) p = true := by
  obtain ⟨h1, h2, h3, h4⟩ := boundingBox_bounds first points p hp
  have hx := le_max_left ((boundingBox first points).2.1 - (boundingBox first points).1)
      ((boundingBox first points).2.2.2 - (boundingBox first points).2.2.1)
  have hy := le_max_right ((boundingBox first points).2.1 - (boundingBox first points).1)
      ((boundingBox first points).2.2.2 - (boundingBox first points).2.2.1)
  simp only [dmax] at hd
  simp only [isBad, distMinusRadius, Triangle.new, superCorners]
  generalize max ((boundingBox first points).2.1 - (boundingBox first points).1)
      ((boundingBox first points).2.2.2 - (boundingBox first points).2.2.1) = d at hd hx hy ⊢
  generalize (boundingBox first points).1 = xmin at h1 hx ⊢
  generalize (boundingBox first points).2.1 = xmax at h2 hx ⊢
  generalize (boundingBox first points).2.2.1 = ymin at h3 hy ⊢
  generalize (boundingBox first points).2.2.2 = ymax at h4 hy ⊢
  rw [circumcircle_super _ _ d hd]
  simp only [decide_eq_true_eq, eps]
  have hu1 : 0 ≤ d / 2 - (p.x - (xmin + xmax) / 2) := by linarith
  have hu2 : 0 ≤ d / 2 + (p.x - (xmin + xmax) / 2) := by linarith
  have hv1 : 0 ≤ d / 2 - (p.y - (ymin + ymax) / 2) := by linarith
  have hv2 : 0 ≤ d / 2 + (p.y - (ymin + ymax) / 2) := by linarith
  nlinarith [mul_nonneg hu1 hu2, mul_nonneg hv1 hv2, mul_nonneg hd.le hv1, mul_pos hd hd]

/-- The three corners are pairwise different when `dmax` is positive. -/
theorem superCorners_distinct (first : Point) (points : List Point)
    (hd : 0 < dmax first points) :
    (superCorners first points).1 ≠ (superCorners first points).2.1 ∧
    (superCorners first points).2.1 ≠ (superCorners first points).2.2 ∧
    (superCorners first points).1 ≠ (superCorners first points).2.2 := by
  simp only [dmax] at hd
  refine ⟨?_, ?_, ?_⟩
  · intro h
    have := congrArg Point.x h
    simp only [superCorners] at this
    linarith
  · intro h
    have := congrArg Point.x h
    simp only [superCorners] at this
    linarith
  · intro h
    have := congrArg Point.x h
    simp only [superCorners] at this
    linarith

/-- Three entries with pairwise different endpoints sets are all retained. -/
theorem uniqueEntries_three (a b c : Point) (hab : a ≠ b) (hbc : b ≠ c) (hac : a ≠ c) :
    uniqueEntries [Edge.mk a b, Edge.mk b c, Edge.mk a c] =
      [Edge.mk a b, Edge.mk b c, Edge.mk a c] := by
  have f : ∀ p q r t : Point, ¬ ((p = r ∧ q = t) ∨ (p = t ∧ q = r)) →
      Edge.operatorEq ⟨p, q⟩ ⟨r, t⟩ = false := by
    intro p q r t h
    cases hh : Edge.operatorEq ⟨p, q⟩ ⟨r, t⟩
    · rfl
    · exact absurd ((edgeEq_iff p q r t).1 hh) h
  have e01 : Edge.operatorEq ⟨a, b⟩ ⟨b, c⟩ = false :=
    f _ _ _ _ (by rintro (⟨h, _⟩ | ⟨h, _⟩); exact hab h; exact hac h)
  have e02 : Edge.operatorEq ⟨a, b⟩ ⟨a, c⟩ = false :=
    f _ _ _ _ (by rintro (⟨_, h⟩ | ⟨h, _⟩); exact hbc h; exact hac h)
  have e10 : Edge.operatorEq ⟨b, c⟩ ⟨a, b⟩ = false :=
    f _ _ _ _ (by rintro (⟨h, _⟩ | ⟨_, h⟩); exact hab h.symm; exact hac h.symm)
  have e12 : Edge.operatorEq ⟨b, c⟩ ⟨a, c⟩ = false :=
    f _ _ _ _ (by rintro (⟨h, _⟩ | ⟨h, _⟩); exact hab h.symm; exact hbc h)
  have e20 : Edge.operatorEq ⟨a, c⟩ ⟨a, b⟩ = false :=
    f _ _ _ _ (by rintro (⟨_, h⟩ | ⟨h, _⟩); exact hbc h.symm; exact hab h)
  have e21 : Edge.operatorEq ⟨a, c⟩ ⟨b, c⟩ = false :=
    f _ _ _ _ (by rintro (⟨h, _⟩ | ⟨h, _⟩); exact hab h; exact hac h)
  simp [uniqueEntries, List.enum, List.enumFrom, List.filter_cons, e01, e02, e10, e12, e20, e21]

/-! ### Triangles at an inserted vertex -/

theorem circumcircle_some_equidistant (p0 p1 p2 : Point) (c : Circle)
    (hc : circumcircle p0 p1 p2 = some c) :
    c.radius = (p0.x - c.x) * (p0.x - c.x) + (p0.y - c.y) * (p0.y - c.y) ∧
    c.radius = (p1.x - c.x) * (p1.x - c.x) + (p1.y - c.y) * (p1.y - c.y) ∧
    c.radius = (p2.x - c.x) * (p2.x - c.x) + (p2.y - c.y) * (p2.y - c.y) := by
  by_cases h : (p1.x - p0.x) * (p2.y - p0.y) - (p1.y - p0.y) * (p2.x - p0.x) = 0
  · simp [circumcircle, h] at hc
  · obtain ⟨d, hd, r⟩ := circumcircle_equidistant p0 p1 p2 h
    rw [hd] at hc
    cases hc
    exact r

/-- A triangle built by the constructor with a finite circle is bad for each of
its own vertices: `dist - radius` is `0`. -/
theorem isBad_vertex (t : Triangle) (P : Point) (hnew : t = Triangle.new t.p0 t.p1 t.p2)
    (hfin : t.circle ≠ none) (hv : t.p0 = P ∨ t.p1 = P ∨ t.p2 = P) :
    isBad t P = true := by
  cases hc : t.circle with
  | none => exact absurd hc hfin
  | some c =>
    have hcc : circumcircle t.p0 t.p1 t.p2 = some c := by
      rw [← hc]
      conv_rhs => rw [hnew]
      rfl
    obtain ⟨r0, r1, r2⟩ := circumcircle_some_equidistant _ _ _ c hcc
    simp only [isBad, distMinusRadius, hc, decide_eq_true_eq, eps]
    rcases hv with rfl | rfl | rfl
    · rw [r0]; ring_nf; norm_num
    · rw [r1]; ring_nf; norm_num
    · rw [r2]; ring_nf; norm_num

/-! ### The third insertion for an input of three points -/

/-- On the flat input `[(0,0), (1,0), (21,1)]` the edge `(0,0)-(1,0)` is not
collected at the third insertion. -/
theorem three_points_flat_copies : copiesOfFirstEdge ⟨0, 0⟩ ⟨1, 0⟩ ⟨21, 1⟩ = 0 := by
  decide!

/-! ### Triangles with coinciding vertices -/

/-- What the insertion loop guarantees by itself: every triangle `T` returned by
`triangulate` was created when its third vertex `T.p2` was inserted, and every
input point `P` that comes after that occurrence of `T.p2` in the input is
outside its circle: `T.circle` is not finite, or `dist - radius > eps`. -/
theorem delaunay_property_later_points (points : List Point) (T : Triangle)
    (hT : T ∈ (triangulate points).triangles) :
    ∃ pre post, points = pre ++ T.p2 :: post ∧
      ∀ P ∈ post, T.circle = none ∨ ∃ w, distMinusRadius T P = some w ∧ eps < w := by
  obtain ⟨first, rest, _, hws, htouch⟩ := mem_triangulate_triangles hT
  rcases workingSet_kept _ _ T hws with h0 | ⟨pre, post, hpts, hpost⟩
  · rw [h0, touchesSuper_new_corners] at htouch
    cases htouch
  · exact ⟨pre, post, hpts, fun P hP => (isBad_eq_false_iff T P).1 (hpost P hP)⟩

/-- The case of the input `[(0,0), (1,0), (0,1), (3,3)]` and the returned
triangle `(0,0), (1,0), (0,1)`, created before `(3,3)` is inserted. -/
theorem delaunay_property_later_points_witness :
    Triangle.new ⟨0, 0⟩ ⟨1, 0⟩ ⟨0, 1⟩ ∈
      (triangulate [⟨0, 0⟩, ⟨1, 0⟩, ⟨0, 1⟩, ⟨3, 3⟩]).triangles ∧
    ∃ pre post, ([⟨0, 0⟩, ⟨1, 0⟩, ⟨0, 1⟩, ⟨3, 3⟩] : List Point) =
        pre ++ (Triangle.new ⟨0, 0⟩ ⟨1, 0⟩ ⟨0, 1⟩).p2 :: post ∧
      ∀ P ∈ post, (Triangle.new ⟨0, 0⟩ ⟨1, 0⟩ ⟨0, 1⟩).circle = none ∨
        ∃ w, distMinusRadius (Triangle.new ⟨0, 0⟩ ⟨1, 0⟩ ⟨0, 1⟩) P = some w ∧ eps < w :=
  ⟨by decide!,
    delaunay_property_later_points [⟨0, 0⟩, ⟨1, 0⟩, ⟨0, 1⟩, ⟨3, 3⟩]
      (Triangle.new ⟨0, 0⟩ ⟨1, 0⟩ ⟨0, 1⟩) (by decide!)⟩

/-! ## Theorems -/

/-! ### Claim C1 -/

/-- C2: for an input of fewer than 3 points `triangulate` returns no triangle
and no edge. -/
theorem triangulate_fewer_than_three (points : List Point) (h : points.length < 3) :
    (triangulate points).triangles = [] ∧ (triangulate points).edges = [] := by
  simp [triangulate, h]

/-- The case of the two-point input `[(0,0), (1,0)]`. -/
theorem triangulate_fewer_than_three_witness :
    ([⟨0, 0⟩, ⟨1, 0⟩] : List Point).length < 3 ∧
    (triangulate [⟨0, 0⟩, ⟨1, 0⟩]).triangles = [] ∧
    (triangulate [⟨0, 0⟩, ⟨1, 0⟩]).edges = [] :=
  ⟨by decide, triangulate_fewer_than_three [⟨0, 0⟩, ⟨1, 0⟩] (by decide)⟩

/-! ### Claim C3 -/

/-- C3: for non-collinear `p0`, `p1`, `p2` the constructor stores a finite
circle whose `radius` is the squared distance from its centre to `p0`, to `p1`
and to `p2`; and every triangle returned by `triangulate` with these vertices
stores such a circle. -/
theorem circumcircle_through_vertices (p0 p1 p2 : Point)
    (h : (p1.x - p0.x) * (p2.y - p0.y) - (p1.y - p0.y) * (p2.x - p0.x) ≠ 0) :
    (∃ c, (Triangle.new p0 p1 p2).circle = some c ∧
      c.radius = (p0.x - c.x) * (p0.x - c.x) + (p0.y - c.y) * (p0.y - c.y) ∧
      c.radius = (p1.x - c.x) * (p1.x - c.x) + (p1.y - c.y) * (p1.y - c.y) ∧
      c.radius = (p2.x - c.x) * (p2.x - c.x) + (p2.y - c.y) * (p2.y - c.y)) ∧
    (∀ points t, t ∈ (triangulate points).triangles →
      t.p0 = p0 → t.p1 = p1 → t.p2 = p2 →
      ∃ c, t.circle = some c ∧
        c.radius = (p0.x - c.x) * (p0.x - c.x) + (p0.y - c.y) * (p0.y - c.y) ∧
        c.radius = (p1.x - c.x) * (p1.x - c.x) + (p1.y - c.y) * (p1.y - c.y) ∧
        c.radius = (p2.x - c.x) * (p2.x - c.x) + (p2.y - c.y) * (p2.y - c.y)) := by
  refine ⟨circumcircle_equidistant p0 p1 p2 h, ?_⟩
  intro points t ht h0 h1 h2
  obtain ⟨first, rest, _, hws, _⟩ := mem_triangulate_triangles ht
  have hnew := workingSet_new _ _ t hws
  rw [h0, h1, h2] at hnew
  rw [hnew]
  exact circumcircle_equidistant p0 p1 p2 h

/-- The case of the triangle `(0,0), (1,0), (0,1)`. -/
theorem circumcircle_through_vertices_witness :
    ((1 : ℚ) - 0) * (1 - 0) - (0 - 0) * (0 - 0) ≠ 0 ∧
    (∃ c, (Triangle.new ⟨0, 0⟩ ⟨1, 0⟩ ⟨0, 1⟩).circle = some c ∧
      c.radius = (0 - c.x) * (0 - c.x) + (0 - c.y) * (0 - c.y) ∧
      c.radius = (1 - c.x) * (1 - c.x) + (0 - c.y) * (0 - c.y) ∧
      c.radius = (0 - c.x) * (0 - c.x) + (1 - c.y) * (1 - c.y)) :=
  ⟨by norm_num, (circumcircle_through_vertices ⟨0, 0⟩ ⟨1, 0⟩ ⟨0, 1⟩ (by norm_num)).1⟩

/-! ### Claim C4 -/

/-- C4: no triangle returned by `triangulate` has a vertex coordinate-equal to
one of the three super-triangle corners computed from the input's bounding
box. -/
theorem no_super_corner_vertex (first : Point) (rest : List Point) (t : Triangle)
    (ht : t ∈ (triangulate (first :: rest)).triangles) (c : Point)
    (hc : c = (superCorners first (first :: rest)).1 ∨
          c = (superCorners first (first :: rest)).2.1 ∨
          c = (superCorners first (first :: rest)).2.2) :
    t.p0 ≠ c ∧ t.p1 ≠ c ∧ t.p2 ≠ c := by
  obtain ⟨first', rest', hpts, _, htouch⟩ := mem_triangulate_triangles ht
  obtain ⟨rfl, rfl⟩ := List.cons.inj hpts
  have h := touchesSuper_eq_false htouch
  rcases hc with rfl | rfl | rfl
  · exact h.1
  · exact h.2.1
  · exact h.2.2

/-- The case of Scenario A, its triangle and the first corner `(-39/2, -1/2)`. -/
theorem no_super_corner_vertex_witness :
    Triangle.new ⟨0, 0⟩ ⟨1, 0⟩ ⟨0, 1⟩ ∈ (triangulate scenarioA).triangles ∧
    (⟨1 / 2 - 20, 1 / 2 - 1⟩ : Point) = (superCorners ⟨0, 0⟩ scenarioA).1 ∧
    (Triangle.new ⟨0, 0⟩ ⟨1, 0⟩ ⟨0, 1⟩).p0 ≠ ⟨1 / 2 - 20, 1 / 2 - 1⟩ ∧
    (Triangle.new ⟨0, 0⟩ ⟨1, 0⟩ ⟨0, 1⟩).p1 ≠ ⟨1 / 2 - 20, 1 / 2 - 1⟩ ∧
    (Triangle.new ⟨0, 0⟩ ⟨1, 0⟩ ⟨0, 1⟩).p2 ≠ ⟨1 / 2 - 20, 1 / 2 - 1⟩ :=
  ⟨by decide!, by decide!,
    no_super_corner_vertex ⟨0, 0⟩ [⟨1, 0⟩, ⟨0, 1⟩] (Triangle.new ⟨0, 0⟩ ⟨1, 0⟩ ⟨0, 1⟩)
      (by decide!) ⟨1 / 2 - 20, 1 / 2 - 1⟩ (Or.inl (by decide!))⟩

/-! ### Claim C5 -/

/-- C5: the returned edge list is the concatenation, in triangle order, of the
three edges `p0-p1`, `p1-p2`, `p0-p2` of every returned triangle, without
deduplication, so that it has `3 * triangles.size()` entries. -/
theorem edges_eq_concat (points : List Point) :
    (triangulate points).edges =
      (triangulate points).triangles.flatMap
        (fun t => [Edge.mk t.p0 t.p1, Edge.mk t.p1 t.p2, Edge.mk t.p0 t.p2]) ∧
    (triangulate points).edges.length = 3 * (triangulate points).triangles.length := by
  have hedges : (triangulate points).edges =
      (triangulate points).triangles.flatMap (fun t => [t.e0, t.e1, t.e2]) := by
    unfold triangulate
    split
    · rfl
    · simp only [triangulateFrom, collectEdges_eq]
  refine ⟨?_, ?_⟩
  · rw [hedges]
    apply flatMap_edges_of_new
    intro t ht
    obtain ⟨first, rest, _, hws, _⟩ := mem_triangulate_triangles ht
    exact workingSet_new _ _ t hws
  · rw [hedges, length_flatMap_edges]

/-! ### Claim C6 -/

/-- C6 (Scenario A): on `[(0,0), (1,0), (0,1)]` the result has exactly one
triangle, its vertices are the three input points, and there are exactly 3
edges. -/
theorem scenarioA_result :
    (triangulate scenarioA).triangles.map (fun t => (t.p0, t.p1, t.p2)) =
      [(⟨0, 0⟩, ⟨1, 0⟩, ⟨0, 1⟩)] ∧
    (triangulate scenarioA).edges.length = 3 := by
  decide!

/-! ### Claim C7 -/

/-- C7 (Scenario B): on the unit square the result has exactly two triangles,
both having the diagonal `(1,0)-(0,1)` as an edge, and 6 edges among which the
diagonal occurs exactly twice under `Edge::operator==`. -/
theorem scenarioB_result :
    (triangulate scenarioB).triangles.map (fun t => (t.p0, t.p1, t.p2)) =
      [(⟨0, 0⟩, ⟨1, 0⟩, ⟨0, 1⟩), (⟨1, 0⟩, ⟨1, 1⟩, ⟨0, 1⟩)] ∧
    (triangulate scenarioB).triangles.all
      (fun t => [t.e0, t.e1, t.e2].any (fun e => e.operatorEq ⟨⟨1, 0⟩, ⟨0, 1⟩⟩)) = true ∧
    (triangulate scenarioB).edges.length = 6 ∧
    (triangulate scenarioB).edges.countP (fun e => e.operatorEq ⟨⟨1, 0⟩, ⟨0, 1⟩⟩) = 2 := by
  decide!

/-! ### Claim C8 -/

/-- C9: `Edge::operator==` is order-insensitive: `Edge(a,b) == Edge(c,d)` holds
exactly when `a`, `b` are coordinate-equal to `c`, `d` in this order or in the
other one; in particular `Edge(a,b) == Edge(b,a)`. -/
theorem edge_operatorEq_order_insensitive (a b c d : Point) :
    (Edge.operatorEq ⟨a, b⟩ ⟨c, d⟩ = true ↔
      ((a.x = c.x ∧ a.y = c.y) ∧ (b.x = d.x ∧ b.y = d.y)) ∨
      ((a.x = d.x ∧ a.y = d.y) ∧ (b.x = c.x ∧ b.y = c.y))) ∧
    Edge.operatorEq ⟨a, b⟩ ⟨b, a⟩ = true := by
  have hp : ∀ p q : Point, p = q ↔ (p.x = q.x ∧ p.y = q.y) := by
    intro p q
    cases p; cases q
    simp
  refine ⟨?_, ?_⟩
  · rw [edgeEq_iff, hp a c, hp b d, hp a d, hp b c]
  · rw [edgeEq_iff]
    exact Or.inr ⟨rfl, rfl⟩

/-! ### Claim C10 -/

/-- C10, as stated, fails: for the input `[(0,0), (0,0), (0,0)]` the working
set before the first insertion is the (degenerate) super-triangle; the code
keeps it when `(0,0)` is inserted, whereas no triangle of the set satisfies
`squared-distance(P, center) - radius > eps`.  And a kept triangle need not
have `P` as third vertex nor satisfy that comparison. -/
theorem insertion_step_counterexample :
    insertPoint (workingSet (superCorners ⟨0, 0⟩ [⟨0, 0⟩, ⟨0, 0⟩, ⟨0, 0⟩]) []) ⟨0, 0⟩ ≠
      insertPointSpec (workingSet (superCorners ⟨0, 0⟩ [⟨0, 0⟩, ⟨0, 0⟩, ⟨0, 0⟩]) []) ⟨0, 0⟩ ∧
    (Triangle.new ⟨0, 0⟩ ⟨1, 0⟩ ⟨2, 0⟩ ∈ insertPoint [Triangle.new ⟨0, 0⟩ ⟨1, 0⟩ ⟨2, 0⟩] ⟨5, 5⟩ ∧
      (Triangle.new ⟨0, 0⟩ ⟨1, 0⟩ ⟨2, 0⟩).p2 ≠ ⟨5, 5⟩ ∧
      strictlyOutside (Triangle.new ⟨0, 0⟩ ⟨1, 0⟩ ⟨2, 0⟩) ⟨5, 5⟩ = false) := by
  decide!

/-- C10 (amended): the new working set is the triangles for which the test
`dist - radius <= eps` is false, in their previous order, followed by one
triangle `(e.p0, e.p1, P)` per retained edge, in order; the test is false
exactly when the circle is not finite or `dist - radius > eps`; so every
triangle of the new set has `P` as third vertex, or a circle that is not
finite, or satisfies `dist - radius > eps`. -/
theorem insertion_step_postcondition (triangles : List Triangle) (P : Point) :
    insertPoint triangles P =
      triangles.filter (fun t => !(isBad t P)) ++
        (eraseMarked (badEdges triangles P) (markDuplicates (badEdges triangles P))).map
          (fun e => Triangle.new e.p0 e.p1 P) ∧
    (∀ t, isBad t P = false ↔ (t.circle = none ∨ strictlyOutside t P = true)) ∧
    (∀ t ∈ insertPoint triangles P,
      t.p2 = P ∨ t.circle = none ∨ ∃ w, distMinusRadius t P = some w ∧ eps < w) := by
  refine ⟨insertPoint_eq triangles P, ?_, ?_⟩
  · intro t
    rw [isBad_eq_false_iff]
    unfold strictlyOutside
    cases h : distMinusRadius t P with
    | none => simp
    | some w => simp
  · intro t ht
    rcases mem_insertPoint ht with ⟨_, hb⟩ | ⟨b, _, _, e, _, rfl⟩
    · right
      exact (isBad_eq_false_iff t P).1 hb
    · left
      rfl

/-! ### Claim C11 -/

/-- C11: the retained edge list is the subsequence, in original order, of the
entries that are equal (in either endpoint order) to no other entry of the
collected list; an edge is retained exactly when it occurs exactly once; and
when an edge occurs two or more times, no entry equal to it is retained. -/
theorem duplicate_edge_removal (edges : List Edge) :
    eraseMarked edges (markDuplicates edges) = uniqueEntries edges ∧
    (eraseMarked edges (markDuplicates edges)).Sublist edges ∧
    (∀ e : Edge, e ∈ eraseMarked edges (markDuplicates edges) ↔
      e ∈ edges ∧ edges.countP (fun f => e.operatorEq f) = 1) ∧
    (∀ e : Edge, 2 ≤ edges.countP (fun f => e.operatorEq f) →
      ∀ f ∈ eraseMarked edges (markDuplicates edges), e.operatorEq f = false) := by
  have hiff : ∀ e : Edge, e ∈ eraseMarked edges (markDuplicates edges) ↔
      e ∈ edges ∧ edges.countP (fun f => e.operatorEq f) = 1 := by
    intro e
    rw [eraseMarked_eq_uniqueEntries]
    exact mem_uniqueEntries_iff edges e
  refine ⟨eraseMarked_eq_uniqueEntries edges, ?_, hiff, ?_⟩
  · unfold eraseMarked
    conv_rhs => rw [← List.enum_map_snd edges]
    exact (List.filter_sublist _).map _
  · intro e he f hf
    cases hef : e.operatorEq f
    · rfl
    · have hf1 := ((hiff f).1 hf).2
      have hsame : edges.countP (fun g => e.operatorEq g) =
          edges.countP (fun g => f.operatorEq g) := by
        apply List.countP_congr
        intro g _
        constructor
        · intro h
          exact edgeEq_trans (by rw [edgeEq_symm]; exact hef) h
        · intro h
          exact edgeEq_trans hef h
      omega

/-! ### Claim C12 -/

/-- C12: when `dmax` is positive, every input point lies strictly inside the
super-triangle, and is none of its three corners. -/
theorem super_triangle_encloses (first : Point) (rest : List Point) (p : Point)
    (hp : p ∈ first :: rest) (hd : 0 < dmax first (first :: rest)) :
    strictlyInside (superCorners first (first :: rest)).1
      (superCorners first (first :: rest)).2.1 (superCorners first (first :: rest)).2.2 p ∧
    p ≠ (superCorners first (first :: rest)).1 ∧
    p ≠ (superCorners first (first :: rest)).2.1 ∧
    p ≠ (superCorners first (first :: rest)).2.2 := by
  refine ⟨superCorners_strictlyInside first _ p hp hd, ?_⟩
  have hne := superCorners_ne first (first :: rest) p hp (by simpa only [dmax] using hd)
  unfold isCorner at hne
  push_neg at hne
  exact hne

/-- The case of Scenario A and its point `(1,0)`. -/
theorem super_triangle_encloses_witness :
    (⟨1, 0⟩ : Point) ∈ scenarioA ∧ 0 < dmax ⟨0, 0⟩ scenarioA ∧
    strictlyInside (superCorners ⟨0, 0⟩ scenarioA).1 (superCorners ⟨0, 0⟩ scenarioA).2.1
      (superCorners ⟨0, 0⟩ scenarioA).2.2 ⟨1, 0⟩ ∧
    (⟨1, 0⟩ : Point) ≠ (superCorners ⟨0, 0⟩ scenarioA).1 ∧
    (⟨1, 0⟩ : Point) ≠ (superCorners ⟨0, 0⟩ scenarioA).2.1 ∧
    (⟨1, 0⟩ : Point) ≠ (superCorners ⟨0, 0⟩ scenarioA).2.2 :=
  ⟨by decide!, by decide!,
    super_triangle_encloses ⟨0, 0⟩ [⟨1, 0⟩, ⟨0, 1⟩] ⟨1, 0⟩ (by decide!) (by decide!)⟩

/-! ### Claim C13 -/

/-- C14: every vertex of every triangle returned by `triangulate`, and every
endpoint of every returned edge, is (coordinate-equal to) a point of the input
sequence. -/
theorem output_vertices_are_input_points (points : List Point) :
    (∀ t ∈ (triangulate points).triangles,
      t.p0 ∈ points ∧ t.p1 ∈ points ∧ t.p2 ∈ points) ∧
    (∀ e ∈ (triangulate points).edges, e.p0 ∈ points ∧ e.p1 ∈ points) := by
  refine ⟨fun t ht => triangulate_vertices_mem ht, ?_⟩
  intro e he
  rw [triangulate_edges_eq, List.mem_flatMap] at he
  obtain ⟨t, ht, het⟩ := he
  obtain ⟨h0, h1, h2⟩ := triangulate_vertices_mem ht
  obtain ⟨first, rest, _, hws, _⟩ := mem_triangulate_triangles ht
  have hnew := workingSet_new _ _ t hws
  have e0 : t.e0 = Edge.mk t.p0 t.p1 := by rw [hnew]; rfl
  have e1 : t.e1 = Edge.mk t.p1 t.p2 := by rw [hnew]; rfl
  have e2 : t.e2 = Edge.mk t.p0 t.p2 := by rw [hnew]; rfl
  simp only [List.mem_cons, List.mem_singleton, List.not_mem_nil, or_false] at het
  rcases het with rfl | rfl | rfl
  · rw [e0]; exact ⟨h0, h1⟩
  · rw [e1]; exact ⟨h1, h2⟩
  · rw [e2]; exact ⟨h0, h2⟩

/-! ### Claim C15 -/

/-- C15: when `dmax` is positive, the super-triangle is classified bad for the
first input point `P`, and after the first insertion the working set is
exactly the three triangles `(s0, s1, P)`, `(s1, s2, P)`, `(s0, s2, P)`. -/
theorem bootstrap_step (first : Point) (rest : List Point)
    (hd : 0 < dmax first (first :: rest)) :
    isBad (Triangle.new (superCorners first (first :: rest)).1
      (superCorners first (first :: rest)).2.1
      (superCorners first (first :: rest)).2.2) first = true ∧
    workingSet (superCorners first (first :: rest)) [first] =
      [Triangle.new (superCorners first (first :: rest)).1
         (superCorners first (first :: rest)).2.1 first,
       Triangle.new (superCorners first (first :: rest)).2.1
         (superCorners first (first :: rest)).2.2 first,
       Triangle.new (superCorners first (first :: rest)).1
         (superCorners first (first :: rest)).2.2 first] := by
  have hbad := isBad_super first (first :: rest) first (List.mem_cons_self _ _) hd
  refine ⟨hbad, ?_⟩
  obtain ⟨h01, h12, h02⟩ := superCorners_distinct first (first :: rest) hd
  have hws : workingSet (superCorners first (first :: rest)) [first] =
      insertPoint [Triangle.new (superCorners first (first :: rest)).1
        (superCorners first (first :: rest)).2.1
        (superCorners first (first :: rest)).2.2] first := rfl
  have hedges : badEdges [Triangle.new (superCorners first (first :: rest)).1
        (superCorners first (first :: rest)).2.1
        (superCorners first (first :: rest)).2.2] first =
      [Edge.mk (superCorners first (first :: rest)).1 (superCorners first (first :: rest)).2.1,
       Edge.mk (superCorners first (first :: rest)).2.1 (superCorners first (first :: rest)).2.2,
       Edge.mk (superCorners first (first :: rest)).1
         (superCorners first (first :: rest)).2.2] := by
    unfold badEdges
    simp only [List.filter_cons, hbad, if_true, List.filter_nil]
    rfl
  rw [hws, insertPoint_eq, hedges, eraseMarked_eq_uniqueEntries,
    uniqueEntries_three _ _ _ h01 h12 h02]
  simp only [List.filter_cons, hbad, Bool.not_true, Bool.false_eq_true, if_false,
    List.filter_nil, List.nil_append]
  rfl

/-- The case of Scenario A, whose first point is `(0,0)`. -/
theorem bootstrap_step_witness :
    0 < dmax ⟨0, 0⟩ scenarioA ∧
    isBad (Triangle.new (superCorners ⟨0, 0⟩ scenarioA).1 (superCorners ⟨0, 0⟩ scenarioA).2.1
      (superCorners ⟨0, 0⟩ scenarioA).2.2) ⟨0, 0⟩ = true ∧
    workingSet (superCorners ⟨0, 0⟩ scenarioA) [⟨0, 0⟩] =
      [Triangle.new (superCorners ⟨0, 0⟩ scenarioA).1
         (superCorners ⟨0, 0⟩ scenarioA).2.1 ⟨0, 0⟩,
       Triangle.new (superCorners ⟨0, 0⟩ scenarioA).2.1
         (superCorners ⟨0, 0⟩ scenarioA).2.2 ⟨0, 0⟩,
       Triangle.new (superCorners ⟨0, 0⟩ scenarioA).1
         (superCorners ⟨0, 0⟩ scenarioA).2.2 ⟨0, 0⟩] :=
  ⟨by decide!, bootstrap_step ⟨0, 0⟩ [⟨1, 0⟩, ⟨0, 1⟩] (by decide!)⟩

/-! ### Claim C16 -/

/-- C16: for non-collinear `p0`, `p1`, `p2` the constructor computes the same
finite circle (`x`, `y` and `radius`) for every order of the three vertices. -/
theorem circumcircle_permutation_invariant (p0 p1 p2 : Point)
    (h : (p1.x - p0.x) * (p2.y - p0.y) - (p1.y - p0.y) * (p2.x - p0.x) ≠ 0) :
    ∃ c, (Triangle.new p0 p1 p2).circle = some c ∧
      (Triangle.new p0 p2 p1).circle = some c ∧
      (Triangle.new p1 p0 p2).circle = some c ∧
      (Triangle.new p1 p2 p0).circle = some c ∧
      (Triangle.new p2 p0 p1).circle = some c ∧
      (Triangle.new p2 p1 p0).circle = some c := by
  have h021 : (p2.x - p0.x) * (p1.y - p0.y) - (p2.y - p0.y) * (p1.x - p0.x) ≠ 0 := by
    intro hz
    apply h
    linear_combination -hz
  have h102 : (p0.x - p1.x) * (p2.y - p1.y) - (p0.y - p1.y) * (p2.x - p1.x) ≠ 0 := by
    intro hz
    apply h
    linear_combination -hz
  have h201 : (p0.x - p2.x) * (p1.y - p2.y) - (p0.y - p2.y) * (p1.x - p2.x) ≠ 0 := by
    intro hz
    apply h
    linear_combination hz
  obtain ⟨c, hc, _⟩ := circumcircle_equidistant p0 p1 p2 h
  have e1 : circumcircle p0 p2 p1 = some c := by rw [circumcircle_swap12 p0 p1 p2 h, hc]
  have e2 : circumcircle p1 p0 p2 = some c := by rw [circumcircle_swap01 p0 p1 p2 h, hc]
  have e3 : circumcircle p1 p2 p0 = some c := by rw [circumcircle_swap12 p1 p0 p2 h102, e2]
  have e4 : circumcircle p2 p0 p1 = some c := by rw [circumcircle_swap01 p0 p2 p1 h021, e1]
  have e5 : circumcircle p2 p1 p0 = some c := by rw [circumcircle_swap12 p2 p0 p1 h201, e4]
  exact ⟨c, hc, e1, e2, e3, e4, e5⟩

/-- The case of the vertices `(0,0)`, `(1,0)`, `(0,1)`. -/
theorem circumcircle_permutation_invariant_witness :
    ((1 : ℚ) - 0) * (1 - 0) - (0 - 0) * (0 - 0) ≠ 0 ∧
    ∃ c, (Triangle.new ⟨0, 0⟩ ⟨1, 0⟩ ⟨0, 1⟩).circle = some c ∧
      (Triangle.new ⟨0, 0⟩ ⟨0, 1⟩ ⟨1, 0⟩).circle = some c ∧
      (Triangle.new ⟨1, 0⟩ ⟨0, 0⟩ ⟨0, 1⟩).circle = some c ∧
      (Triangle.new ⟨1, 0⟩ ⟨0, 1⟩ ⟨0, 0⟩).circle = some c ∧
      (Triangle.new ⟨0, 1⟩ ⟨0, 0⟩ ⟨1, 0⟩).circle = some c ∧
      (Triangle.new ⟨0, 1⟩ ⟨1, 0⟩ ⟨0, 0⟩).circle = some c :=
  ⟨by norm_num, circumcircle_permutation_invariant ⟨0, 0⟩ ⟨1, 0⟩ ⟨0, 1⟩ (by norm_num)⟩

end delaunay
